import Mathlib

/-!
# Verification of the ftp-browser-cli coordination core

A shallow embedding, in Lean 4, of the parts of the `ftp-browser-cli`
repository that the specification's claims are about:

* the path normalizer (`src/utils/path.ts`: `normalizePath`),
* the listing pipeline of `FTPService.list` / `FileParser.parseListOutput`
  (filtering of `.` and `..`, mapping to items, sorting with the
  directories-first comparator built on `String.localeCompare`),
* the resume-offset computation of `FTPService.download`,
* `FTPService.downloadDirectory` (recursive directory download),
* the `connect` error classification,
* the recursive, cancellable search walk of `SearchService.search`,
* the UI store's selection state (`uiSlice.ts`) and the download-key
  dispatch of `useKeyboard.ts` / `useDownload.ts`.

TypeScript functions become Lean functions; the mutable `this.cancelled`
flag of the search service becomes an explicit step-counted cancellation
schedule (the flag can only flip while a listing `await` is in flight);
thrown exceptions become `Option`/`Except` values; the remote server is a
value (a map from path to listing, or an inline tree).
-/

/-- File entry type tag: directory, regular file, or symbolic link
(the `'DIR' | 'FILE' | 'LINK'` union of `types/index.ts`). -/
inductive FileType where
  | dir : FileType
  | file : FileType
  | link : FileType
deriving DecidableEq, Repr

/-- A directory entry as produced by the listing pipeline (`FileItem` of
`types/index.ts`).  `path` is the origin directory a search result was found
in (absent for plain listings). -/
structure FileItem where
  type : FileType
  name : String
  size : Option Nat := none
  date : Option String := none
  target : Option String := none
  permissions : Option String := none
  path : Option String := none
deriving DecidableEq, Repr

/-! ## A model of `String.localeCompare`

`FTPService.list` and `FileParser.parseListOutput` sort with
`a.name.localeCompare(b.name)`.  For ASCII strings under the default
(en-US ICU) collation, `localeCompare` orders primarily by the
case-folded letters and breaks ties with lowercase before uppercase.
The model below implements exactly that two-level comparison; it is the
comparison the sorting theorems are stated against. -/

/-- ASCII lower-casing of one character (the effect of JS `toLowerCase`
on ASCII input). -/
def lowerChar (c : Char) : Char :=
  if 'A' ≤ c ∧ c ≤ 'Z' then Char.ofNat (c.toNat + 32) else c

/-- Whether a character is an ASCII uppercase letter. -/
def isUpperAscii (c : Char) : Bool :=
  'A' ≤ c && c ≤ 'Z'

/-- Primary collation key: the code points of the case-folded string. -/
def primaryKey (s : String) : List Nat :=
  s.data.map (fun c => (lowerChar c).toNat)

/-- Tertiary collation key: 1 where the character was uppercase (so that
lowercase sorts first on a primary tie). -/
def caseKey (s : String) : List Nat :=
  s.data.map (fun c => if isUpperAscii c then 1 else 0)

/-- Lexicographic comparison of two lists of naturals. -/
def cmpNatList : List Nat → List Nat → Ordering
  | [], [] => .eq
  | [], _ :: _ => .lt
  | _ :: _, [] => .gt
  | a :: as, b :: bs =>
    if a < b then .lt else if b < a then .gt else cmpNatList as bs

/-- Model of `a.localeCompare(b)` (sign only): primary level first, the
case level as tie-break. -/
def localeCompareM (a b : String) : Ordering :=
  (cmpNatList (primaryKey a) (primaryKey b)).then
    (cmpNatList (caseKey a) (caseKey b))

/-- The sort comparator of `FTPService.list` / `FileParser.parseListOutput`:

```
if (a.type === 'DIR' && b.type !== 'DIR') return -1;
if (a.type !== 'DIR' && b.type === 'DIR') return 1;
return a.name.localeCompare(b.name);
``` -/
def compareEntries (a b : FileItem) : Ordering :=
  if a.type = FileType.dir ∧ b.type ≠ FileType.dir then .lt
  else if a.type ≠ FileType.dir ∧ b.type = FileType.dir then .gt
  else localeCompareM a.name b.name

/-- The non-strict order induced by the comparator (`cmp ≤ 0`). -/
def entryLe (a b : FileItem) : Prop :=
  compareEntries a b ≠ Ordering.gt

instance : DecidableRel entryLe := fun a b =>
  inferInstanceAs (Decidable (compareEntries a b ≠ Ordering.gt))

/-- `Array.prototype.sort` with the comparator above: modelled as a sort
(insertion sort) by the induced order. -/
def sortEntries (l : List FileItem) : List FileItem :=
  List.insertionSort entryLe l

/-! ### Lawfulness of the comparator -/

/-- The laws a JS comparator needs for `Array.sort` to sort: swapping the
arguments flips the sign, strict less-than is transitive, and comparing
equal stands for interchangeability. -/
structure LawfulCmp {α : Type} (c : α → α → Ordering) : Prop where
  swap_eq : ∀ a b, (c a b).swap = c b a
  lt_trans : ∀ a b x, c a b = .lt → c b x = .lt → c a x = .lt
  eq_compat : ∀ a b x, c a b = .eq → c a x = c b x

theorem cmpNatList_swap : ∀ a b, (cmpNatList a b).swap = cmpNatList b a := by
  intro a
  induction a with
  | nil => intro b; cases b <;> rfl
  | cons x as ih =>
    intro b
    cases b with
    | nil => rfl
    | cons y bs =>
      simp only [cmpNatList]
      rcases lt_trichotomy x y with h | h | h
      · have h1 : ¬ y < x := by omega
        simp only [if_pos h, if_neg h1]
        rfl
      · subst h
        have h1 : ¬ x < x := by omega
        simp only [if_neg h1]
        exact ih bs
      · have h1 : ¬ x < y := by omega
        simp only [if_pos h, if_neg h1]
        rfl

theorem cmpNatList_eq_iff : ∀ a b, cmpNatList a b = .eq ↔ a = b := by
  intro a
  induction a with
  | nil => intro b; cases b <;> simp [cmpNatList]
  | cons x as ih =>
    intro b
    cases b with
    | nil => simp [cmpNatList]
    | cons y bs =>
      simp only [cmpNatList]
      rcases lt_trichotomy x y with h | h | h
      · rw [if_pos h]
        simp only [List.cons.injEq]
        constructor
        · intro hc; cases hc
        · rintro ⟨rfl, _⟩; omega
      · subst h
        rw [if_neg (by omega), if_neg (by omega)]
        simp [ih bs]
      · rw [if_neg (by omega), if_pos h]
        simp only [List.cons.injEq]
        constructor
        · intro hc; cases hc
        · rintro ⟨rfl, _⟩; omega

theorem cmpNatList_lt_trans :
    ∀ a b x, cmpNatList a b = .lt → cmpNatList b x = .lt → cmpNatList a x = .lt := by
  intro a
  induction a with
  | nil =>
    intro b x hab hbx
    cases b with
    | nil => cases hab
    | cons y bs =>
      cases x with
      | nil => cases hbx
      | cons z xs => rfl
  | cons v as ih =>
    intro b x hab hbx
    cases b with
    | nil => cases hab
    | cons y bs =>
      cases x with
      | nil => cases hbx
      | cons z xs =>
        simp only [cmpNatList] at hab hbx ⊢
        rcases lt_trichotomy v y with h1 | h1 | h1
        · rcases lt_trichotomy y z with h2 | h2 | h2
          · rw [if_pos (by omega)]
          · subst h2; rw [if_pos h1]
          · rw [if_neg (by omega), if_pos h2] at hbx; cases hbx
        · subst h1
          rcases lt_trichotomy v z with h2 | h2 | h2
          · rw [if_pos h2]
          · subst h2
            rw [if_neg (by omega), if_neg (by omega)] at hab hbx ⊢
            exact ih bs xs hab hbx
          · rw [if_neg (by omega), if_pos h2] at hbx; cases hbx
        · rw [if_neg (by omega), if_pos h1] at hab; cases hab

theorem lawful_cmpNatList : LawfulCmp cmpNatList where
  swap_eq := cmpNatList_swap
  lt_trans := cmpNatList_lt_trans
  eq_compat := by
    intro a b x h
    rw [(cmpNatList_eq_iff a b).mp h]

theorem Ordering.then_swap (a b : Ordering) : (a.then b).swap = a.swap.then b.swap := by
  cases a <;> cases b <;> rfl

/-- A lawful comparison sees gt exactly where the swapped arguments see lt. -/
theorem LawfulCmp.gt_of_lt {α : Type} {c : α → α → Ordering} (hc : LawfulCmp c)
    {a b : α} (h : c a b = .lt) : c b a = .gt := by
  have := hc.swap_eq a b
  rw [h] at this
  exact this.symm

/-- Lexicographic combination of two lawful key comparisons is lawful. -/
theorem lawfulCmp_then {α : Type} {f g : α → α → Ordering}
    (hf : LawfulCmp f) (hg : LawfulCmp g) :
    LawfulCmp (fun a b => (f a b).then (g a b)) := by
  constructor
  · intro a b
    rw [Ordering.then_swap, hf.swap_eq, hg.swap_eq]
  · intro a b x hab hbx
    simp only at hab hbx ⊢
    rcases hf1 : f a b with _ | _ | _ <;> rw [hf1] at hab
    · -- f a b = .lt
      rcases hf2 : f b x with _ | _ | _ <;> rw [hf2] at hbx
      · rw [hf.lt_trans a b x hf1 hf2]; rfl
      · -- f b x = .eq: replace b by x on the left of f via eq_compat and swap
        have hba : f b a = .gt := hf.gt_of_lt hf1
        have hxa : f b a = f x a := hf.eq_compat b x a hf2
        have hax : f a x = .lt := by
          have hs := hf.swap_eq x a
          rw [← hxa, hba] at hs
          exact hs.symm
        rw [hax]; rfl
      · cases hbx
    · -- f a b = .eq, so hab gives g a b = .lt
      have hgab : g a b = .lt := hab
      have hax : f a x = f b x := hf.eq_compat a b x hf1
      rcases hf2 : f b x with _ | _ | _ <;> rw [hf2] at hbx
      · rw [hax, hf2]; rfl
      · have hgbx : g b x = .lt := hbx
        rw [hax, hf2]
        exact hg.lt_trans a b x hgab hgbx
      · cases hbx
    · cases hab
  · intro a b x h
    simp only at h ⊢
    obtain ⟨hfe, hge⟩ := Ordering.then_eq_eq.mp h
    rw [hf.eq_compat a b x hfe, hg.eq_compat a b x hge]

/-- A lawful comparison composed with a key extraction is lawful. -/
theorem lawfulCmp_on {α β : Type} {c : β → β → Ordering} (hc : LawfulCmp c)
    (k : α → β) : LawfulCmp (fun a b => c (k a) (k b)) where
  swap_eq := fun a b => hc.swap_eq (k a) (k b)
  lt_trans := fun a b x => hc.lt_trans (k a) (k b) (k x)
  eq_compat := fun a b x => hc.eq_compat (k a) (k b) (k x)

/-- Pointwise equal comparisons share lawfulness. -/
theorem lawfulCmp_congr {α : Type} {c1 c2 : α → α → Ordering}
    (h : ∀ a b, c1 a b = c2 a b) (hc : LawfulCmp c2) : LawfulCmp c1 where
  swap_eq := fun a b => by rw [h, hc.swap_eq, h b a]
  lt_trans := fun a b x hab hbx => by
    rw [h] at hab hbx ⊢
    exact hc.lt_trans a b x hab hbx
  eq_compat := fun a b x hab => by
    rw [h] at hab ⊢
    rw [h b x]
    exact hc.eq_compat a b x hab

theorem lawful_localeCompareM : LawfulCmp localeCompareM :=
  lawfulCmp_then (lawfulCmp_on lawful_cmpNatList primaryKey)
    (lawfulCmp_on lawful_cmpNatList caseKey)

/-- Sort rank of the type tag: directories first. -/
def dirRank (t : FileType) : Nat :=
  if t = FileType.dir then 0 else 1

/-- The entry comparator is the lexicographic combination of the
directories-first rank and the name comparison. -/
theorem compareEntries_eq_then (a b : FileItem) :
    compareEntries a b =
      (cmpNatList [dirRank a.type] [dirRank b.type]).then
        (localeCompareM a.name b.name) := by
  rcases a with ⟨ta, na, _, _, _, _, _⟩
  rcases b with ⟨tb, nb, _, _, _, _, _⟩
  cases ta <;> cases tb <;>
    simp [compareEntries, dirRank, cmpNatList, Ordering.then]

theorem lawful_compareEntries : LawfulCmp compareEntries :=
  lawfulCmp_congr compareEntries_eq_then
    (lawfulCmp_then (lawfulCmp_on lawful_cmpNatList (fun a => [dirRank a.type]))
      (lawfulCmp_on lawful_localeCompareM (fun a : FileItem => a.name)))

/-- Lawfulness gives transitivity of the induced non-strict order. -/
theorem LawfulCmp.le_trans {α : Type} {c : α → α → Ordering} (hc : LawfulCmp c)
    {a b x : α} (hab : c a b ≠ .gt) (hbx : c b x ≠ .gt) : c a x ≠ .gt := by
  rcases h1 : c a b with _ | _ | _
  · rcases h2 : c b x with _ | _ | _
    · rw [hc.lt_trans a b x h1 h2]; decide
    · have hba : c b a = .gt := hc.gt_of_lt h1
      have hxa : c b a = c x a := hc.eq_compat b x a h2
      have : c a x = .lt := by
        have hs := hc.swap_eq x a
        rw [← hxa, hba] at hs
        exact hs.symm
      rw [this]; decide
    · exact absurd h2 hbx
  · rw [hc.eq_compat a b x h1]
    exact hbx
  · exact absurd h1 hab

/-- Lawfulness gives totality of the induced non-strict order. -/
theorem LawfulCmp.le_total {α : Type} {c : α → α → Ordering} (hc : LawfulCmp c)
    (a b : α) : c a b ≠ .gt ∨ c b a ≠ .gt := by
  rcases h : c a b with _ | _ | _
  · left; decide
  · left; decide
  · right
    have hs := hc.swap_eq a b
    rw [h] at hs
    intro hgt
    rw [hgt] at hs
    exact absurd hs (by decide)

instance : IsTotal FileItem entryLe :=
  ⟨lawful_compareEntries.le_total⟩

instance : IsTrans FileItem entryLe :=
  ⟨fun _ _ _ => lawful_compareEntries.le_trans⟩

/-- The sorted list is ordered by the comparator's order. -/
theorem sortEntries_sorted (l : List FileItem) :
    List.Sorted entryLe (sortEntries l) :=
  List.sorted_insertionSort entryLe l

/-- Sorting permutes, so membership is preserved. -/
theorem sortEntries_perm (l : List FileItem) : (sortEntries l).Perm l :=
  List.perm_insertionSort entryLe l

/-- Unfolding of the comparator's order into the two claim-facing parts:
directories never follow non-directories, and inside one type group the
names are ordered by the (locale) name comparison. -/
theorem entryLe_elim {a b : FileItem} (h : entryLe a b) :
    (b.type = FileType.dir → a.type = FileType.dir) ∧
      ((a.type = FileType.dir ↔ b.type = FileType.dir) →
        localeCompareM a.name b.name ≠ Ordering.gt) := by
  unfold entryLe at h
  constructor
  · intro hb
    by_contra ha
    simp [compareEntries, ha, hb] at h
  · intro hiff
    by_cases had : a.type = FileType.dir
    · have hbd : b.type = FileType.dir := hiff.mp had
      simpa [compareEntries, had, hbd] using h
    · have hbd : ¬ b.type = FileType.dir := fun hb => had (hiff.mpr hb)
      simpa [compareEntries, had, hbd] using h

/-! ## The listing pipeline

`FTPService.list` gets raw `FileInfo` records from the FTP client library,
drops `.` and `..`, maps each record to a `FileItem` and sorts
(`src/services/ftpClient.ts`).  `FileParser.parseListOutput` splits raw
LIST text into non-blank lines, parses each line (Unix grammar first, then
DOS), drops unparseable lines and sorts with the same comparator
(`src/services/fileParser.ts`); the per-line grammar is out of the claims'
scope and stays a parameter. -/

/-- A raw listing record as delivered by the FTP client library
(`basic-ftp`'s `FileInfo`, the fields the service reads). -/
structure RawFileInfo where
  name : String
  isDirectory : Bool := false
  isSymbolicLink : Bool := false
  size : Option Nat := none
  modifiedAt : Option String := none
  link : Option String := none
  permissions : Option (Nat × Nat × Nat) := none
deriving DecidableEq, Repr

/-- One rwx triple of `formatPermissions`. -/
def formatRwx (n : Nat) : String :=
  (if n &&& 4 ≠ 0 then "r" else "-") ++
    (if n &&& 2 ≠ 0 then "w" else "-") ++
    (if n &&& 1 ≠ 0 then "x" else "-")

/-- The service's `formatPermissions`: type character plus user, group and
world rwx triples. -/
def formatPermissions (p : Nat × Nat × Nat) (isDir isLink : Bool) : String :=
  (if isLink then "l" else if isDir then "d" else "-") ++
    formatRwx p.1 ++ formatRwx p.2.1 ++ formatRwx p.2.2

/-- The service's `toFileItem` mapping from a raw record to an entry. -/
def toFileItem (f : RawFileInfo) : FileItem :=
  { type :=
      if f.isSymbolicLink then FileType.link
      else if f.isDirectory then FileType.dir
      else FileType.file
    name := f.name
    size := f.size
    date := f.modifiedAt
    target := if f.isSymbolicLink then f.link else none
    permissions :=
      f.permissions.map (fun p => formatPermissions p f.isDirectory f.isSymbolicLink)
    path := none }

/-- `FTPService.list`'s post-processing of the raw listing: drop `.` and
`..`, map to items, sort. -/
def listEntries (raw : List RawFileInfo) : List FileItem :=
  sortEntries ((raw.filter (fun f => f.name != "." && f.name != "..")).map toFileItem)

/-- `FileParser.parseListOutput`: split into lines, keep non-blank ones,
parse each line (the per-line grammar is the `parseLine` parameter), keep
the parses, sort. -/
def parseListOutput (parseLine : String → Option FileItem) (output : String) :
    List FileItem :=
  sortEntries
    (((output.splitOn "\n").filter (fun line => line.trim.length > 0)).filterMap parseLine)

/-- The claim-facing order on a produced list: a directory never follows a
non-directory, and within one type group the names are non-decreasing in
the (locale) name comparison. -/
def dirsFirstNameOrder (a b : FileItem) : Prop :=
  (b.type = FileType.dir → a.type = FileType.dir) ∧
    ((a.type = FileType.dir ↔ b.type = FileType.dir) →
      localeCompareM a.name b.name ≠ Ordering.gt)

theorem sortEntries_pairwise (l : List FileItem) :
    List.Pairwise dirsFirstNameOrder (sortEntries l) :=
  (sortEntries_sorted l).imp (fun h => entryLe_elim h)

/-- The code units (code points) of a string, for stating the
case-sensitive lexicographic order the claim refers to. -/
def codeUnits (s : String) : List Nat :=
  s.data.map Char.toNat

/-- C3 counterexample: two plain files named `B` and `a`.  The pipeline
sorts them (via `localeCompare`) as `a` before `B`, but in case-sensitive
lexicographic code-unit order `a` is greater than `B` — so the produced
order is not the case-sensitive lexicographic order the claim states. -/
theorem C3_counterexample_case_sensitive_order :
    sortEntries
        [{ type := FileType.file, name := "B" }, { type := FileType.file, name := "a" }] =
      [{ type := FileType.file, name := "a" }, { type := FileType.file, name := "B" }] ∧
    cmpNatList (codeUnits "a") (codeUnits "B") = Ordering.gt :=
  ⟨by decide, by decide⟩

/-- C3 (amended): every entry list produced by `list()` and by
`FileParser.parseListOutput` is sorted so that all DIR entries precede all
non-DIR entries, and within each type group names are non-decreasing in
the locale name order of `localeCompare` (case-insensitive at its primary
level, lowercase before uppercase on ties) — not the case-sensitive
code-unit order. -/
theorem C3_lists_sorted_dirs_first_locale_order (raw : List RawFileInfo)
    (parseLine : String → Option FileItem) (output : String) :
    List.Pairwise dirsFirstNameOrder (listEntries raw) ∧
      List.Pairwise dirsFirstNameOrder (parseListOutput parseLine output) :=
  ⟨sortEntries_pairwise _, sortEntries_pairwise _⟩

/-- C10: `list()` never returns an entry named `.` or `..` — the two
entries are removed before mapping and sorting. -/
theorem C10_list_filters_dot_entries (raw : List RawFileInfo) (e : FileItem)
    (he : e ∈ listEntries raw) : e.name ≠ "." ∧ e.name ≠ ".." := by
  unfold listEntries at he
  have hmem := (sortEntries_perm _).mem_iff.mp he
  rw [List.mem_map] at hmem
  obtain ⟨f, hf, rfl⟩ := hmem
  rw [List.mem_filter] at hf
  obtain ⟨-, hp⟩ := hf
  simp only [Bool.and_eq_true, bne_iff_ne, ne_eq] at hp
  exact ⟨hp.1, hp.2⟩

/-- Witness for C10 at a concrete listing: the server reports `..` and
`notes.txt`; the produced list contains the `notes.txt` item, whose name
is neither `.` nor `..`. -/
theorem C10_list_filters_dot_entries_witness :
    ({ type := FileType.file, name := "notes.txt" } : FileItem).name ≠ "." ∧
      ({ type := FileType.file, name := "notes.txt" } : FileItem).name ≠ ".." :=
  C10_list_filters_dot_entries
    [{ name := "..", isDirectory := true }, { name := "notes.txt" }]
    { type := FileType.file, name := "notes.txt" } (by decide)

/-! ## UI selection state (`store/uiSlice.ts`)

The zustand store's fields and the actions the claims are about, as pure
state transformers.  The JS `Set<number>` of checked global indices is a
`Finset Nat`. -/

/-- The UI store's selection-related state. -/
structure UIState where
  selectedIndex : Nat := 0
  currentPage : Nat := 0
  itemsPerPage : Nat := 20
  searchQuery : String := ""
  searchResults : List FileItem := []
  isSearching : Bool := false
  checkedItems : Finset Nat := ∅
deriving DecidableEq

/-- `setSearchResults`: installs a fresh search-result list and resets the
cursor and page — `set({ searchResults: results, selectedIndex: 0,
currentPage: 0 })`. -/
def setSearchResults (s : UIState) (results : List FileItem) : UIState :=
  { s with searchResults := results, selectedIndex := 0, currentPage := 0 }

/-- `resetSelection` (called by `useNavigation` before every directory
change): `set({ selectedIndex: 0, currentPage: 0 })`. -/
def resetSelection (s : UIState) : UIState :=
  { s with selectedIndex := 0, currentPage := 0 }

/-- `clearChecked`: `set({ checkedItems: new Set<number>() })`. -/
def clearChecked (s : UIState) : UIState :=
  { s with checkedItems := ∅ }

/-- `toggleCheck`: toggles one global index in the checked set. -/
def toggleCheck (s : UIState) (index : Nat) : UIState :=
  if index ∈ s.checkedItems then
    { s with checkedItems := s.checkedItems.erase index }
  else
    { s with checkedItems := insert index s.checkedItems }

/-- C1: with item 0 checked, installing a fresh search-result list via
`setSearchResults` and replacing the listing via navigation (whose only
selection-state effect is `resetSelection`) both leave the checked set of
size 1 — neither operation empties it, so the checked-set size is not
zero after the displayed list is replaced. -/
theorem C1_checked_set_survives_replacement :
    ((setSearchResults
          { selectedIndex := 3, currentPage := 1, checkedItems := {0} }
          [{ type := FileType.file, name := "match.txt" }]).checkedItems.card = 1) ∧
      ((resetSelection
          { selectedIndex := 3, currentPage := 1, checkedItems := {0} }).checkedItems.card
        = 1) ∧
      ((clearChecked
          { selectedIndex := 3, currentPage := 1, checkedItems := {0} }).checkedItems.card
        = 0) :=
  ⟨by decide, by decide, by decide⟩

/-! ## Resume offset (`FTPService.download`) -/

/-- Configured resume threshold (`defaults.resumeThreshold` of
`utils/constants.ts`, documented there as "1KB - files smaller than this
won't resume"). -/
def resumeThreshold : Nat := 1024

/-- The offset `FTPService.download` resumes from:

```
const startOffset =
  existingSize > 0 && totalSize > 0 && totalSize > existingSize ? existingSize : 0;
```

`existingSize` is the local partial-file size (0 when absent), `totalSize`
the remote size from SIZE (0 when the command failed or is unsupported). -/
def startOffset (existingSize totalSize : Nat) : Nat :=
  if 0 < existingSize ∧ 0 < totalSize ∧ existingSize < totalSize then existingSize
  else 0

/-- The offset actually requested from the server: `downloadTo(local,
remote, startOffset)` when the offset is positive, a plain `downloadTo`
(offset 0) otherwise. -/
def requestedOffset (existingSize totalSize : Nat) : Nat :=
  if 0 < startOffset existingSize totalSize then startOffset existingSize totalSize
  else 0

/-- C2: a 1-byte local partial file with a known 2048-byte remote file is
resumed from offset 1, although 1 byte is far below the configured
`resumeThreshold` of 1024 — the download path never consults the
threshold, contradicting the claim (and the constant's own comment) that
such files are always restarted from offset 0. -/
theorem C2_below_threshold_still_resumes :
    requestedOffset 1 2048 = 1 ∧ startOffset 1 2048 = 1 ∧ 1 < resumeThreshold :=
  ⟨by decide, by decide, by decide⟩

/-! ## Path normalization (`utils/path.ts`)

`normalizePath` strips trailing slashes, ensures a leading slash, splits
on `/`, drops empty segments, resolves `.` and `..` and rejoins.  The
string operations (`split('/')`, `join('/')`, the trailing-slash regex)
are modelled on the character list of the string. -/

/-- Worker of JS `str.split('/')`: `acc` holds the current segment
reversed. -/
def splitSlashAux (acc : List Char) : List Char → List (List Char)
  | [] => [acc.reverse]
  | c :: rest =>
    if c = '/' then acc.reverse :: splitSlashAux [] rest
    else splitSlashAux (c :: acc) rest

/-- JS `str.split('/')` (as lists of characters). -/
def splitSlash (cs : List Char) : List (List Char) :=
  splitSlashAux [] cs

/-- The `replace(/\/+$/, '')` step: drop every trailing slash. -/
def dropTrailingSlashes (cs : List Char) : List Char :=
  (cs.reverse.dropWhile (fun c => c = '/')).reverse

/-- The resolution loop over segments: skip `.`, pop on `..` (when
anything was pushed), push everything else.  `acc` holds the resolved
segments most-recent first. -/
def resolveSegs (acc : List (List Char)) : List (List Char) → List (List Char)
  | [] => acc.reverse
  | s :: rest =>
    if s = ['.'] then resolveSegs acc rest
    else if s = ['.', '.'] then resolveSegs acc.tail rest
    else resolveSegs (s :: acc) rest

/-- JS `segments.join('/')`. -/
def joinSegs : List (List Char) → List Char
  | [] => []
  | [s] => s
  | s :: rest => s ++ '/' :: joinSegs rest

/-- The path normalizer of `utils/path.ts`:

```
if (!path || path === '') return '/';
let normalized = path.replace(/\/+$/, '');
if (!normalized.startsWith('/')) normalized = '/' + normalized;
const segments = normalized.split('/').filter(s => s !== '');
...resolve '.' and '..'...
return '/' + resolved.join('/');
``` -/
def normalizePath (p : String) : String :=
  if p = "" then "/"
  else
    let trimmed := dropTrailingSlashes p.data
    let led := if trimmed.head? = some '/' then trimmed else '/' :: trimmed
    let segs := (splitSlash led).filter (fun s => s ≠ [])
    let resolved := resolveSegs [] segs
    String.mk ('/' :: joinSegs resolved)

/-- A canonical path segment: non-empty and not a dot segment. -/
def goodSeg (s : List Char) : Prop :=
  s ≠ [] ∧ s ≠ ['.'] ∧ s ≠ ['.', '.']

theorem splitSlashAux_no_slash :
    ∀ (cs acc : List Char), '/' ∉ acc →
      ∀ s ∈ splitSlashAux acc cs, '/' ∉ s := by
  intro cs
  induction cs with
  | nil =>
    intro acc hacc s hs
    simp only [splitSlashAux, List.mem_singleton] at hs
    subst hs
    simpa using hacc
  | cons c rest ih =>
    intro acc hacc s hs
    simp only [splitSlashAux] at hs
    by_cases hc : c = '/'
    · rw [if_pos hc] at hs
      rcases List.mem_cons.mp hs with h | h
      · subst h; simpa using hacc
      · exact ih [] (by simp) s h
    · rw [if_neg hc] at hs
      refine ih (c :: acc) ?_ s hs
      intro hmem
      rcases List.mem_cons.mp hmem with h | h
      · exact hc h.symm
      · exact hacc h

theorem splitSlash_no_slash {cs : List Char} {s : List Char}
    (hs : s ∈ splitSlash cs) : '/' ∉ s :=
  splitSlashAux_no_slash cs [] (by simp) s hs

theorem resolveSegs_mem :
    ∀ (segs acc : List (List Char)) (s : List Char), s ∈ resolveSegs acc segs →
      s ∈ acc ∨ (s ∈ segs ∧ s ≠ ['.'] ∧ s ≠ ['.', '.']) := by
  intro segs
  induction segs with
  | nil =>
    intro acc s hs
    simp only [resolveSegs, List.mem_reverse] at hs
    exact Or.inl hs
  | cons t rest ih =>
    intro acc s hs
    simp only [resolveSegs] at hs
    by_cases h1 : t = ['.']
    · rw [if_pos h1] at hs
      rcases ih acc s hs with h | ⟨hm, hd⟩
      · exact Or.inl h
      · exact Or.inr ⟨List.mem_cons_of_mem _ hm, hd⟩
    · rw [if_neg h1] at hs
      by_cases h2 : t = ['.', '.']
      · rw [if_pos h2] at hs
        rcases ih acc.tail s hs with h | ⟨hm, hd⟩
        · exact Or.inl (List.mem_of_mem_tail h)
        · exact Or.inr ⟨List.mem_cons_of_mem _ hm, hd⟩
      · rw [if_neg h2] at hs
        rcases ih (t :: acc) s hs with h | ⟨hm, hd⟩
        · rcases List.mem_cons.mp h with h | h
          · subst h
            exact Or.inr ⟨List.mem_cons_self _ _, h1, h2⟩
          · exact Or.inl h
        · exact Or.inr ⟨List.mem_cons_of_mem _ hm, hd⟩

theorem resolveSegs_no_dots :
    ∀ (segs acc : List (List Char)),
      (∀ s ∈ segs, s ≠ ['.'] ∧ s ≠ ['.', '.']) →
      resolveSegs acc segs = acc.reverse ++ segs := by
  intro segs
  induction segs with
  | nil => intro acc _; simp [resolveSegs]
  | cons t rest ih =>
    intro acc h
    have ht := h t (List.mem_cons_self _ _)
    simp only [resolveSegs]
    rw [if_neg ht.1, if_neg ht.2]
    rw [ih (t :: acc) (fun s hs => h s (List.mem_cons_of_mem _ hs))]
    simp

theorem splitSlashAux_of_no_slash :
    ∀ (x acc : List Char), '/' ∉ x →
      splitSlashAux acc x = [acc.reverse ++ x] := by
  intro x
  induction x with
  | nil => intro acc _; simp [splitSlashAux]
  | cons c rest ih =>
    intro acc hx
    have hc : ¬ c = '/' := fun h => hx (h ▸ List.mem_cons_self _ _)
    simp only [splitSlashAux, if_neg hc]
    rw [ih (c :: acc) (fun h => hx (List.mem_cons_of_mem _ h))]
    simp

theorem splitSlashAux_append_slash :
    ∀ (x acc cs : List Char), '/' ∉ x →
      splitSlashAux acc (x ++ '/' :: cs) = (acc.reverse ++ x) :: splitSlashAux [] cs := by
  intro x
  induction x with
  | nil => intro acc cs _; simp [splitSlashAux]
  | cons c rest ih =>
    intro acc cs hx
    have hc : ¬ c = '/' := fun h => hx (h ▸ List.mem_cons_self _ _)
    simp only [List.cons_append, splitSlashAux, if_neg hc, List.append_eq]
    rw [ih (c :: acc) cs (fun h => hx (List.mem_cons_of_mem _ h))]
    simp

theorem splitSlash_joinSegs :
    ∀ (L : List (List Char)), L ≠ [] → (∀ s ∈ L, '/' ∉ s) →
      splitSlash (joinSegs L) = L := by
  intro L
  induction L with
  | nil => intro h _; exact absurd rfl h
  | cons x rest ih =>
    intro _ hL
    cases rest with
    | nil =>
      show splitSlashAux [] (joinSegs [x]) = [x]
      simp only [joinSegs]
      rw [splitSlashAux_of_no_slash x [] (hL x (List.mem_cons_self _ _))]
      simp
    | cons y rest2 =>
      show splitSlashAux [] (joinSegs (x :: y :: rest2)) = x :: y :: rest2
      simp only [joinSegs]
      rw [splitSlashAux_append_slash x [] _ (hL x (List.mem_cons_self _ _))]
      rw [show splitSlashAux [] (joinSegs (y :: rest2)) = splitSlash (joinSegs (y :: rest2)) from rfl]
      rw [ih (by simp) (fun s hs => hL s (List.mem_cons_of_mem _ hs))]
      simp

theorem getLast?_mem_list {l : List Char} {c : Char} (h : l.getLast? = some c) :
    c ∈ l := by
  obtain ⟨hne, heq⟩ := List.mem_getLast?_eq_getLast (Option.mem_def.mpr h)
  rw [heq]
  exact List.getLast_mem hne

theorem joinSegs_getLast :
    ∀ (L : List (List Char)), L ≠ [] → (∀ s ∈ L, s ≠ [] ∧ '/' ∉ s) →
      ∃ c, (joinSegs L).getLast? = some c ∧ c ≠ '/' := by
  intro L
  induction L with
  | nil => intro h _; exact absurd rfl h
  | cons x rest ih =>
    intro _ hL
    cases rest with
    | nil =>
      obtain ⟨hx, hsl⟩ := hL x (List.mem_cons_self _ _)
      show ∃ c, x.getLast? = some c ∧ c ≠ '/'
      cases hg : x.getLast? with
      | none => exact absurd (List.getLast?_eq_none_iff.mp hg) hx
      | some c =>
        refine ⟨c, rfl, fun hc => hsl ?_⟩
        rw [← hc]
        exact getLast?_mem_list hg
    | cons y rest2 =>
      obtain ⟨c, hcl, hcs⟩ := ih (by simp) (fun s hs => hL s (List.mem_cons_of_mem _ hs))
      refine ⟨c, ?_, hcs⟩
      show (x ++ '/' :: joinSegs (y :: rest2)).getLast?  = some c
      rw [List.getLast?_append]
      have : ('/' :: joinSegs (y :: rest2)).getLast? = some c := by
        have hne : joinSegs (y :: rest2) ≠ [] := by
          intro hnil
          rw [hnil] at hcl
          cases hcl
        rw [show '/' :: joinSegs (y :: rest2) = ['/'] ++ joinSegs (y :: rest2) from rfl]
        rw [List.getLast?_append, hcl]
        rfl
      rw [this]
      rfl

theorem dropTrailingSlashes_eq_self {cs : List Char} {c : Char}
    (hl : cs.getLast? = some c) (hc : c ≠ '/') :
    dropTrailingSlashes cs = cs := by
  unfold dropTrailingSlashes
  have h1 : cs.reverse.head? = some c := by rw [List.head?_reverse]; exact hl
  cases hrev : cs.reverse with
  | nil => rw [hrev] at h1; cases h1
  | cons d t =>
    rw [hrev] at h1
    injection h1 with h1
    subst h1
    rw [List.dropWhile_cons, if_neg (by simpa using hc)]
    rw [← hrev, List.reverse_reverse]

theorem splitSlash_cons_slash (cs : List Char) :
    splitSlash ('/' :: cs) = [] :: splitSlash cs := by
  simp [splitSlash, splitSlashAux]

/-- Unfolding of the normalizer on a non-empty input. -/
theorem normalizePath_of_ne (p : String) (hp : p ≠ "") :
    normalizePath p = String.mk ('/' :: joinSegs (resolveSegs []
      ((splitSlash (if (dropTrailingSlashes p.data).head? = some '/'
          then dropTrailingSlashes p.data
          else '/' :: dropTrailingSlashes p.data)).filter (fun s => s ≠ [])))) := by
  unfold normalizePath
  rw [if_neg hp]

/-- Every normalized path is a slash followed by a slash-joined list of
canonical (non-empty, dot-free, slash-free) segments. -/
theorem normalizePath_canonical (p : String) :
    ∃ L, (∀ s ∈ L, goodSeg s ∧ '/' ∉ s) ∧
      normalizePath p = String.mk ('/' :: joinSegs L) := by
  by_cases hp : p = ""
  · refine ⟨[], by simp, ?_⟩
    rw [hp]
    rfl
  · unfold normalizePath
    rw [if_neg hp]
    refine ⟨_, ?_, rfl⟩
    intro s hs
    rcases resolveSegs_mem _ [] s hs with h | ⟨hm, hd1, hd2⟩
    · cases h
    · rw [List.mem_filter] at hm
      obtain ⟨hsp, hne⟩ := hm
      refine ⟨⟨?_, hd1, hd2⟩, splitSlash_no_slash hsp⟩
      simpa using hne

/-- A slash followed by slash-joined canonical segments is a fixed point
of the normalizer. -/
theorem normalizePath_fixpoint (L : List (List Char))
    (hL : ∀ s ∈ L, goodSeg s ∧ '/' ∉ s) :
    normalizePath (String.mk ('/' :: joinSegs L)) = String.mk ('/' :: joinSegs L) := by
  cases L with
  | nil => decide
  | cons x rest =>
    have hLne : x :: rest ≠ ([] : List (List Char)) := by simp
    have hgood : ∀ s ∈ x :: rest, s ≠ [] ∧ '/' ∉ s :=
      fun s hs => ⟨(hL s hs).1.1, (hL s hs).2⟩
    have hnodot : ∀ s ∈ x :: rest, s ≠ ['.'] ∧ s ≠ ['.', '.'] :=
      fun s hs => ⟨(hL s hs).1.2.1, (hL s hs).1.2.2⟩
    have hnoslash : ∀ s ∈ x :: rest, '/' ∉ s := fun s hs => (hgood s hs).2
    obtain ⟨c, hcl, hcs⟩ := joinSegs_getLast (x :: rest) hLne hgood
    have hdata : (String.mk ('/' :: joinSegs (x :: rest))).data = '/' :: joinSegs (x :: rest) := rfl
    have hne0 : String.mk ('/' :: joinSegs (x :: rest)) ≠ "" := by
      intro h
      have := congrArg String.data h
      rw [hdata] at this
      cases this
    have hlast : ('/' :: joinSegs (x :: rest)).getLast? = some c := by
      rw [show '/' :: joinSegs (x :: rest) = ['/'] ++ joinSegs (x :: rest) from rfl]
      rw [List.getLast?_append, hcl]
      rfl
    rw [normalizePath_of_ne _ hne0, hdata]
    rw [dropTrailingSlashes_eq_self hlast hcs]
    rw [if_pos (show ('/' :: joinSegs (x :: rest)).head? = some '/' from rfl)]
    rw [splitSlash_cons_slash, splitSlash_joinSegs _ hLne hnoslash]
    have hfilter :
        (([] : List Char) :: x :: rest).filter (fun s => s ≠ []) = x :: rest := by
      rw [List.filter_cons]
      rw [if_neg (by simp)]
      rw [List.filter_eq_self.mpr]
      intro a ha
      simpa using (hgood a ha).1
    rw [hfilter]
    rw [resolveSegs_no_dots _ [] hnodot]
    rfl

/-- C7: normalization is idempotent, and every normalized path starts with
a slash, contains no empty or dot segments and has no trailing slash
(except when the result is exactly the root `/`). -/
theorem C7_normalizePath_idempotent_canonical (p : String) :
    normalizePath (normalizePath p) = normalizePath p ∧
      (normalizePath p).data.head? = some '/' ∧
      (normalizePath p = "/" ∨
        ((∀ s ∈ (splitSlash (normalizePath p).data).tail, goodSeg s) ∧
          (normalizePath p).data.getLast? ≠ some '/')) := by
  obtain ⟨L, hL, hp⟩ := normalizePath_canonical p
  refine ⟨?_, ?_, ?_⟩
  · rw [hp]
    exact normalizePath_fixpoint L hL
  · rw [hp]
    rfl
  · cases L with
    | nil =>
      left
      rw [hp]
      rfl
    | cons x rest =>
      right
      have hLne : x :: rest ≠ ([] : List (List Char)) := by simp
      have hgood : ∀ s ∈ x :: rest, s ≠ [] ∧ '/' ∉ s :=
        fun s hs => ⟨(hL s hs).1.1, (hL s hs).2⟩
      have hnoslash : ∀ s ∈ x :: rest, '/' ∉ s := fun s hs => (hgood s hs).2
      constructor
      · intro s hs
        rw [hp] at hs
        have hdata : (String.mk ('/' :: joinSegs (x :: rest))).data
            = '/' :: joinSegs (x :: rest) := rfl
        rw [hdata, splitSlash_cons_slash, splitSlash_joinSegs _ hLne hnoslash] at hs
        exact (hL s hs).1
      · obtain ⟨c, hcl, hcs⟩ := joinSegs_getLast (x :: rest) hLne hgood
        rw [hp]
        have hdata : (String.mk ('/' :: joinSegs (x :: rest))).data
            = '/' :: joinSegs (x :: rest) := rfl
        rw [hdata]
        rw [show '/' :: joinSegs (x :: rest) = ['/'] ++ joinSegs (x :: rest) from rfl]
        rw [List.getLast?_append, hcl]
        intro h
        injection h with h
        exact hcs h

/-! ## Recursive search (`services/searchService.ts`)

`SearchService.search` resets the cancellation flag, lowercases the
pattern, and walks depth-first from the start path: at each directory it
checks the flag and the depth bound, reports progress, lists the
directory (a listing failure is caught and the subtree skipped), and for
each entry checks the flag again, records a match (tagged with the
containing directory, delivered to `onMatch` immediately) when the
lowercased name contains the pattern, and recurses into subdirectories.

The mutable `this.cancelled` flag can only flip while a listing `await`
is pending (single-threaded runtime), so cancellation is modelled by a
schedule `cancelAfter = k`: the flag reads true once `k` listing calls
have completed, i.e. `cancel()` arrived while the k-th call was in
flight.  A `k` larger than the total number of listing calls is a run
that is never cancelled.  The walk records an event trace. -/

/-- JS `toLowerCase` (ASCII model). -/
def toLowerStr (s : String) : String :=
  String.mk (s.data.map lowerChar)

/-- Worker for substring search: does the needle occur in the haystack? -/
def isSubstrList (needle : List Char) : List Char → Bool
  | [] => needle.isEmpty
  | c :: t => needle.isPrefixOf (c :: t) || isSubstrList needle t

/-- JS `hay.includes(needle)`. -/
def containsSub (hay needle : String) : Bool :=
  isSubstrList needle.data hay.data

/-- Events of one search run, oldest first. -/
inductive SEvent where
  | listCall (path : String) : SEvent
  | progress (path : String) : SEvent
  | matchFound (item : FileItem) : SEvent
deriving DecidableEq, Repr

/-- State threaded through the walk: completed listing calls, the event
trace, and the collected results array. -/
structure SearchSt where
  calls : Nat := 0
  trace : List SEvent := []
  results : List FileItem := []
deriving DecidableEq, Repr

/-- The full path built for an entry:
`cur === '/' ? '/' + name : cur + '/' + name`. -/
def fullPath (cur name : String) : String :=
  if cur = "/" then "/" ++ name else cur ++ "/" ++ name

/-- Progress report plus one completed listing call: the state change of
`onProgress?.(cur)` followed by `await this.ftp.list(cur)` returning. -/
def stepListSt (st : SearchSt) (cur : String) : SearchSt :=
  { st with
      calls := st.calls + 1
      trace := st.trace ++ [SEvent.progress cur, SEvent.listCall cur] }

/-- Match handling for one entry: when the lowercased name contains the
(lowercased) pattern, the match — tagged with its containing directory —
is pushed onto the results and delivered (`onMatch`). -/
def matchStep (pat cur : String) (f : FileItem) (st : SearchSt) : SearchSt :=
  if containsSub (toLowerStr f.name) pat then
    { st with
        trace := st.trace ++ [SEvent.matchFound { f with path := some cur }]
        results := st.results ++ [{ f with path := some cur }] }
  else st

mutual

/-- One directory visit of the walk (`recurse(cur, depth)`); `fuel` is
`maxDepth - depth`, so `fuel = 0` is the `depth >= limit` guard. -/
def searchDir (fs : String → Option (List FileItem)) (pat : String)
    (cancelAfter : Nat) : Nat → String → SearchSt → SearchSt
  | 0, _, st => st
  | fuel + 1, cur, st =>
    if cancelAfter ≤ st.calls then st
    else
      match fs cur with
      | none => stepListSt st cur
      | some files => searchEntries fs pat cancelAfter fuel cur files (stepListSt st cur)
termination_by fuel _ _ => (fuel, 0)

/-- The entry loop of one directory visit. -/
def searchEntries (fs : String → Option (List FileItem)) (pat : String)
    (cancelAfter : Nat) : Nat → String → List FileItem → SearchSt → SearchSt
  | _, _, [], st => st
  | fuel, cur, f :: rest, st =>
    if cancelAfter ≤ st.calls then st
    else
      searchEntries fs pat cancelAfter fuel cur rest
        (if f.type = FileType.dir then
          searchDir fs pat cancelAfter fuel (fullPath cur f.name) (matchStep pat cur f st)
        else matchStep pat cur f st)
termination_by fuel _ files _ => (fuel, files.length + 1)

end

/-- `SearchService.search(startPath, pattern, maxDepth, …)` under the
cancellation schedule `cancelAfter`. -/
def searchRun (fs : String → Option (List FileItem)) (pattern : String)
    (maxDepth cancelAfter : Nat) (startPath : String) : SearchSt :=
  searchDir fs (toLowerStr pattern) cancelAfter maxDepth startPath {}

theorem searchDir_zero {fs : String → Option (List FileItem)} {pat : String}
    {k : Nat} {cur : String} {st : SearchSt} :
    searchDir fs pat k 0 cur st = st := by
  simp [searchDir]

theorem searchDir_cancelled {fs : String → Option (List FileItem)} {pat : String}
    {k fuel : Nat} {cur : String} {st : SearchSt} (h : k ≤ st.calls) :
    searchDir fs pat k (fuel + 1) cur st = st := by
  simp [searchDir, h]

theorem searchDir_fail {fs : String → Option (List FileItem)} {pat : String}
    {k fuel : Nat} {cur : String} {st : SearchSt} (h : ¬ k ≤ st.calls)
    (hfs : fs cur = none) :
    searchDir fs pat k (fuel + 1) cur st = stepListSt st cur := by
  simp [searchDir, h, hfs]

theorem searchDir_list {fs : String → Option (List FileItem)} {pat : String}
    {k fuel : Nat} {cur : String} {st : SearchSt} {files : List FileItem}
    (h : ¬ k ≤ st.calls) (hfs : fs cur = some files) :
    searchDir fs pat k (fuel + 1) cur st =
      searchEntries fs pat k fuel cur files (stepListSt st cur) := by
  simp [searchDir, h, hfs]

theorem searchEntries_nil {fs : String → Option (List FileItem)} {pat : String}
    {k fuel : Nat} {cur : String} {st : SearchSt} :
    searchEntries fs pat k fuel cur [] st = st := by
  simp [searchEntries]

theorem searchEntries_cancelled {fs : String → Option (List FileItem)} {pat : String}
    {k fuel : Nat} {cur : String} {f : FileItem} {rest : List FileItem}
    {st : SearchSt} (h : k ≤ st.calls) :
    searchEntries fs pat k fuel cur (f :: rest) st = st := by
  simp [searchEntries, h]

theorem searchEntries_cons {fs : String → Option (List FileItem)} {pat : String}
    {k fuel : Nat} {cur : String} {f : FileItem} {rest : List FileItem}
    {st : SearchSt} (h : ¬ k ≤ st.calls) :
    searchEntries fs pat k fuel cur (f :: rest) st =
      searchEntries fs pat k fuel cur rest
        (if f.type = FileType.dir then
          searchDir fs pat k fuel (fullPath cur f.name) (matchStep pat cur f st)
        else matchStep pat cur f st) := by
  simp [searchEntries, h]

/-- Listing calls in a trace. -/
def countCalls : List SEvent → Nat
  | [] => 0
  | SEvent.listCall _ :: rest => countCalls rest + 1
  | SEvent.progress _ :: rest => countCalls rest
  | SEvent.matchFound _ :: rest => countCalls rest

/-- The cancellation discipline over a trace: starting with `c` completed
listing calls, every listing call is issued and every match delivered
only while fewer than `k` calls have completed (the flag is still
unobserved), the call counter advancing at each listing call. -/
def traceRespectsCancel (k : Nat) : Nat → List SEvent → Bool
  | _, [] => true
  | c, SEvent.listCall _ :: rest => decide (c < k) && traceRespectsCancel k (c + 1) rest
  | c, SEvent.progress _ :: rest => traceRespectsCancel k c rest
  | c, SEvent.matchFound _ :: rest => decide (c < k) && traceRespectsCancel k c rest

theorem countCalls_append :
    ∀ a b : List SEvent, countCalls (a ++ b) = countCalls a + countCalls b := by
  intro a
  induction a with
  | nil => intro b; simp [countCalls]
  | cons e rest ih =>
    intro b
    cases e <;> simp [countCalls, ih] <;> omega

theorem traceRespectsCancel_append :
    ∀ (a b : List SEvent) (k c : Nat),
      traceRespectsCancel k c (a ++ b) =
        (traceRespectsCancel k c a && traceRespectsCancel k (c + countCalls a) b) := by
  intro a
  induction a with
  | nil => intro b k c; simp [traceRespectsCancel, countCalls]
  | cons e rest ih =>
    intro b k c
    cases e with
    | listCall p =>
      simp only [List.cons_append, traceRespectsCancel, countCalls, List.append_eq,
        ih, Bool.and_assoc]
      rw [show c + (countCalls rest + 1) = c + 1 + countCalls rest by omega]
    | progress p =>
      simp only [List.cons_append, traceRespectsCancel, countCalls, List.append_eq, ih]
    | matchFound i =>
      simp only [List.cons_append, traceRespectsCancel, countCalls, List.append_eq,
        ih, Bool.and_assoc]

theorem respects_chain {k c : Nat} {d0 d : List SEvent}
    (h0 : traceRespectsCancel k c d0 = true)
    (h : traceRespectsCancel k (c + countCalls d0) d = true) :
    traceRespectsCancel k c (d0 ++ d) = true := by
  rw [traceRespectsCancel_append, h0, h]
  rfl

theorem matchStep_calls {pat cur : String} {f : FileItem} {st : SearchSt} :
    (matchStep pat cur f st).calls = st.calls := by
  unfold matchStep
  split <;> rfl

theorem matchStep_trace (k : Nat) (pat cur : String) (f : FileItem) (st : SearchSt) :
    ∃ d0, (matchStep pat cur f st).trace = st.trace ++ d0 ∧ countCalls d0 = 0 ∧
      (st.calls < k → traceRespectsCancel k st.calls d0 = true) := by
  unfold matchStep
  split
  · refine ⟨[SEvent.matchFound { f with path := some cur }], rfl, rfl, ?_⟩
    intro hck
    simp [traceRespectsCancel, hck]
  · exact ⟨[], by simp, rfl, fun _ => rfl⟩

/-- The walk's trace discipline: starting from any state, the events a
visit appends issue every listing call and deliver every match strictly
before the cancellation point, and the call counter advances exactly with
the listing calls of the trace. -/
theorem searchWalk_respects_cancel (fs : String → Option (List FileItem))
    (pat : String) (k : Nat) :
    ∀ fuel : Nat,
      (∀ cur st, ∃ d,
          (searchDir fs pat k fuel cur st).trace = st.trace ++ d ∧
          (searchDir fs pat k fuel cur st).calls = st.calls + countCalls d ∧
          traceRespectsCancel k st.calls d = true) ∧
      (∀ cur files st, ∃ d,
          (searchEntries fs pat k fuel cur files st).trace = st.trace ++ d ∧
          (searchEntries fs pat k fuel cur files st).calls = st.calls + countCalls d ∧
          traceRespectsCancel k st.calls d = true) := by
  intro fuel
  induction fuel with
  | zero =>
    have hdir : ∀ cur st, ∃ d,
        (searchDir fs pat k 0 cur st).trace = st.trace ++ d ∧
        (searchDir fs pat k 0 cur st).calls = st.calls + countCalls d ∧
        traceRespectsCancel k st.calls d = true := by
      intro cur st
      exact ⟨[], by simp [searchDir_zero], by simp [searchDir_zero, countCalls], rfl⟩
    refine ⟨hdir, ?_⟩
    intro cur files
    induction files with
    | nil =>
      intro st
      exact ⟨[], by simp [searchEntries_nil], by simp [searchEntries_nil, countCalls], rfl⟩
    | cons f rest ihf =>
      intro st
      by_cases hc : k ≤ st.calls
      · exact ⟨[], by simp [searchEntries_cancelled hc],
          by simp [searchEntries_cancelled hc, countCalls], rfl⟩
      · rw [searchEntries_cons hc]
        obtain ⟨d0, ht0, hc0, hr0⟩ := matchStep_trace k pat cur f st
        have hst2 :
            (if f.type = FileType.dir then
              searchDir fs pat k 0 (fullPath cur f.name) (matchStep pat cur f st)
            else matchStep pat cur f st) = matchStep pat cur f st := by
          split <;> simp [searchDir_zero]
        rw [hst2]
        obtain ⟨d, ht, hcd, hr⟩ := ihf (matchStep pat cur f st)
        refine ⟨d0 ++ d, ?_, ?_, ?_⟩
        · rw [ht, ht0, List.append_assoc]
        · rw [hcd, matchStep_calls, countCalls_append, hc0]
          omega
        · refine respects_chain (hr0 (by omega)) ?_
          rw [hc0]
          rw [show st.calls + 0 = (matchStep pat cur f st).calls by
            rw [matchStep_calls]; omega]
          exact hr
  | succ n ihn =>
    obtain ⟨ihdir, ihent⟩ := ihn
    have hdir : ∀ cur st, ∃ d,
        (searchDir fs pat k (n + 1) cur st).trace = st.trace ++ d ∧
        (searchDir fs pat k (n + 1) cur st).calls = st.calls + countCalls d ∧
        traceRespectsCancel k st.calls d = true := by
      intro cur st
      by_cases hc : k ≤ st.calls
      · exact ⟨[], by simp [searchDir_cancelled hc],
          by simp [searchDir_cancelled hc, countCalls], rfl⟩
      · cases hfs : fs cur with
        | none =>
          refine ⟨[SEvent.progress cur, SEvent.listCall cur], ?_, ?_, ?_⟩
          · rw [searchDir_fail hc hfs]; rfl
          · rw [searchDir_fail hc hfs]; simp [stepListSt, countCalls]
          · simp only [traceRespectsCancel, Bool.and_true]
            simp only [decide_eq_true_eq]
            omega
        | some files =>
          obtain ⟨d, ht, hcd, hr⟩ := ihent cur files (stepListSt st cur)
          rw [searchDir_list hc hfs]
          refine ⟨[SEvent.progress cur, SEvent.listCall cur] ++ d, ?_, ?_, ?_⟩
          · rw [ht]
            show _ = st.trace ++ ([SEvent.progress cur, SEvent.listCall cur] ++ d)
            rw [← List.append_assoc]
            rfl
          · rw [hcd, countCalls_append]
            show (stepListSt st cur).calls + countCalls d =
              st.calls + (countCalls [SEvent.progress cur, SEvent.listCall cur] + countCalls d)
            simp [stepListSt, countCalls]
            omega
          · refine respects_chain ?_ ?_
            · simp only [traceRespectsCancel, Bool.and_true, decide_eq_true_eq]
              omega
            · rw [show countCalls [SEvent.progress cur, SEvent.listCall cur] = 1 from rfl]
              rw [show st.calls + 1 = (stepListSt st cur).calls from rfl]
              exact hr
    refine ⟨hdir, ?_⟩
    intro cur files
    induction files with
    | nil =>
      intro st
      exact ⟨[], by simp [searchEntries_nil], by simp [searchEntries_nil, countCalls], rfl⟩
    | cons f rest ihf =>
      intro st
      by_cases hc : k ≤ st.calls
      · exact ⟨[], by simp [searchEntries_cancelled hc],
          by simp [searchEntries_cancelled hc, countCalls], rfl⟩
      · rw [searchEntries_cons hc]
        obtain ⟨d0, ht0, hc0, hr0⟩ := matchStep_trace k pat cur f st
        have hmid : ∃ dm,
            ((if f.type = FileType.dir then
                searchDir fs pat k (n + 1) (fullPath cur f.name) (matchStep pat cur f st)
              else matchStep pat cur f st)).trace = st.trace ++ (d0 ++ dm) ∧
            ((if f.type = FileType.dir then
                searchDir fs pat k (n + 1) (fullPath cur f.name) (matchStep pat cur f st)
              else matchStep pat cur f st)).calls = st.calls + countCalls (d0 ++ dm) ∧
            traceRespectsCancel k st.calls (d0 ++ dm) = true := by
          split
          · obtain ⟨dm, htm, hcm, hrm⟩ :=
              hdir (fullPath cur f.name) (matchStep pat cur f st)
            refine ⟨dm, ?_, ?_, ?_⟩
            · rw [htm, ht0, List.append_assoc]
            · rw [hcm, matchStep_calls, countCalls_append, hc0]
              omega
            · refine respects_chain (hr0 (by omega)) ?_
              rw [hc0]
              rw [show st.calls + 0 = (matchStep pat cur f st).calls by
                rw [matchStep_calls]; omega]
              exact hrm
          · refine ⟨[], ?_, ?_, ?_⟩
            · rw [List.append_nil]; exact ht0
            · rw [List.append_nil, hc0, matchStep_calls]
              omega
            · rw [List.append_nil]; exact hr0 (by omega)
        obtain ⟨dm, htm2, hcm2, hrm2⟩ := hmid
        obtain ⟨d, ht, hcd, hr⟩ := ihf
          (if f.type = FileType.dir then
            searchDir fs pat k (n + 1) (fullPath cur f.name) (matchStep pat cur f st)
          else matchStep pat cur f st)
        refine ⟨(d0 ++ dm) ++ d, ?_, ?_, ?_⟩
        · rw [ht, htm2, List.append_assoc]
        · rw [hcd, hcm2]
          simp only [countCalls_append]
          omega
        · refine respects_chain hrm2 ?_
          rw [← hcm2]
          exact hr

theorem traceRespectsCancel_calls_le :
    ∀ (t : List SEvent) (k c : Nat), traceRespectsCancel k c t = true →
      countCalls t ≤ k - c := by
  intro t
  induction t with
  | nil => intro k c _; simp [countCalls]
  | cons e rest ih =>
    intro k c h
    cases e with
    | listCall p =>
      simp only [traceRespectsCancel, Bool.and_eq_true, decide_eq_true_eq] at h
      have := ih k (c + 1) h.2
      simp only [countCalls]
      omega
    | progress p =>
      simp only [traceRespectsCancel] at h
      simpa [countCalls] using ih k c h
    | matchFound i =>
      simp only [traceRespectsCancel, Bool.and_eq_true] at h
      simpa [countCalls] using ih k c h.2

/-- C5: under any cancellation schedule (`cancel()` delivered while the
`cancelAfter`-th listing call is in flight, so the flag reads true from
that call's completion on), the run's trace issues every directory
listing and delivers every `onMatch` callback strictly before
`cancelAfter` listing calls have completed: once the cancellation flag is
observable, no further listing call is issued and no further match
fires — only the listing already in flight still completes — and in
particular the whole run performs at most `cancelAfter` listing calls. -/
theorem C5_cancel_stops_calls_and_matches (fs : String → Option (List FileItem))
    (pattern : String) (maxDepth cancelAfter : Nat) (startPath : String) :
    traceRespectsCancel cancelAfter 0
        (searchRun fs pattern maxDepth cancelAfter startPath).trace = true ∧
      countCalls (searchRun fs pattern maxDepth cancelAfter startPath).trace
        ≤ cancelAfter := by
  obtain ⟨d, ht, hcd, hr⟩ :=
    (searchWalk_respects_cancel fs (toLowerStr pattern) cancelAfter maxDepth).1
      startPath {}
  have hd : (searchRun fs pattern maxDepth cancelAfter startPath).trace = d := by
    unfold searchRun
    rw [ht]
    rfl
  rw [hd]
  have h0 : traceRespectsCancel cancelAfter 0 d = true := hr
  refine ⟨h0, ?_⟩
  have := traceRespectsCancel_calls_le d cancelAfter 0 h0
  omega

/-- Skipping a failed directory listing is the same as treating that
directory as empty: the walk over `fs` and the walk over the totalized
listing function agree state for state. -/
theorem searchWalk_totalize (fs : String → Option (List FileItem))
    (pat : String) (k : Nat) :
    ∀ fuel : Nat,
      (∀ cur st, searchDir fs pat k fuel cur st =
        searchDir (fun p => some ((fs p).getD [])) pat k fuel cur st) ∧
      (∀ cur files st, searchEntries fs pat k fuel cur files st =
        searchEntries (fun p => some ((fs p).getD [])) pat k fuel cur files st) := by
  intro fuel
  induction fuel with
  | zero =>
    have hdir : ∀ cur st, searchDir fs pat k 0 cur st =
        searchDir (fun p => some ((fs p).getD [])) pat k 0 cur st := by
      intro cur st
      rw [searchDir_zero, searchDir_zero]
    refine ⟨hdir, ?_⟩
    intro cur files
    induction files with
    | nil =>
      intro st
      rw [searchEntries_nil, searchEntries_nil]
    | cons f rest ihf =>
      intro st
      by_cases hc : k ≤ st.calls
      · rw [searchEntries_cancelled hc, searchEntries_cancelled hc]
      · rw [searchEntries_cons hc, searchEntries_cons hc]
        rw [hdir, ihf]
  | succ n ihn =>
    obtain ⟨ihdir, ihent⟩ := ihn
    have hdir : ∀ cur st, searchDir fs pat k (n + 1) cur st =
        searchDir (fun p => some ((fs p).getD [])) pat k (n + 1) cur st := by
      intro cur st
      by_cases hc : k ≤ st.calls
      · rw [searchDir_cancelled hc, searchDir_cancelled hc]
      · cases hfs : fs cur with
        | none =>
          rw [searchDir_fail hc hfs]
          rw [searchDir_list hc (show (fun p => some ((fs p).getD [])) cur = some []
            by simp [hfs])]
          rw [searchEntries_nil]
        | some files =>
          rw [searchDir_list hc hfs]
          rw [searchDir_list hc (show (fun p => some ((fs p).getD [])) cur = some files
            by simp [hfs])]
          exact ihent cur files (stepListSt st cur)
    refine ⟨hdir, ?_⟩
    intro cur files
    induction files with
    | nil =>
      intro st
      rw [searchEntries_nil, searchEntries_nil]
    | cons f rest ihf =>
      intro st
      by_cases hc : k ≤ st.calls
      · rw [searchEntries_cancelled hc, searchEntries_cancelled hc]
      · rw [searchEntries_cons hc, searchEntries_cons hc]
        rw [hdir, ihf]

/-- C6: a per-directory listing failure is caught inside the walk: the
failing subtree contributes nothing (exactly as if the directory were
empty), the walk continues with the sibling branches, the search still
completes (it is a total function of the listing outcomes, never a
rejection), and it returns precisely the matches collected from the
successfully listed directories — the run over `fs` equals, state for
state (results, trace and call count), the run in which every failing
directory is replaced by an empty listing. -/
theorem C6_listing_failure_skipped (fs : String → Option (List FileItem))
    (pattern : String) (maxDepth cancelAfter : Nat) (startPath : String) :
    searchRun fs pattern maxDepth cancelAfter startPath =
      searchRun (fun p => some ((fs p).getD [])) pattern maxDepth cancelAfter
        startPath := by
  unfold searchRun
  exact (searchWalk_totalize fs (toLowerStr pattern) cancelAfter maxDepth).1
    startPath {}

/-! ## Download dispatch (`hooks/useKeyboard.ts` + `hooks/useDownload.ts`)

The `d` key handler in browse/search mode: with a non-empty checked set it
resolves every checked index against the displayed list, queues the FILE
and DIR entries (directories always recursively) against each entry's own
`path` when present (search results) else the current browse path, and
clears the checked set; with an empty checked set it queues the single
entry under the cursor the same way. -/

/-- A queued transfer request as produced by `useDownload`. -/
structure DownloadRequest where
  remotePath : String
  localPath : String
  recursive : Bool
deriving DecidableEq, Repr

/-- Node `path.join(downloadDir, name)` for the simple one-segment case
used here. -/
def joinLocal (dir name : String) : String :=
  dir ++ "/" ++ name

/-- `useDownload.addFileDownload(item, remoteBase)`: early return for
non-FILE items, otherwise queue `remoteBase === '/' ? '/' + name :
remoteBase + '/' + name` to `join(downloadDir, name)`. -/
def addFileDownload (downloadDir : String) (item : FileItem)
    (remoteBase : String) : Option DownloadRequest :=
  if item.type ≠ FileType.file then none
  else some
    { remotePath := fullPath remoteBase item.name
      localPath := joinLocal downloadDir item.name
      recursive := false }

/-- `useDownload.addDirectoryDownload(item, remoteBase, recursive)`: early
return for non-DIR items, otherwise queue the directory transfer. -/
def addDirectoryDownload (downloadDir : String) (item : FileItem)
    (remoteBase : String) (recursive : Bool) : Option DownloadRequest :=
  if item.type ≠ FileType.dir then none
  else some
    { remotePath := fullPath remoteBase item.name
      localPath := joinLocal downloadDir item.name
      recursive := recursive }

/-- The browse-state inputs the `d` key handler reads. -/
structure BrowseState where
  displayItems : List FileItem
  currentPath : String
  checkedItems : Finset Nat
  globalIndex : Nat
deriving DecidableEq

/-- The `d` key branch of `handleBrowse`: returns the queued requests and
the checked set afterwards.

```
if (checkedItems.size > 0) {
  const indices = Array.from(checkedItems).sort((a, b) => a - b);
  const items = indices.map((i) => displayItems[i]).filter(Boolean);
  for (const item of items) {
    const base = item.path ?? currentPath;
    if (item.type === 'FILE') dl.addFileDownload(item, base);
    else if (item.type === 'DIR') dl.addDirectoryDownload(item, base, true);
  }
  clearChecked();
} else if (selectedItem) { … the same for the single item … }
``` -/
def dispatchDownloadKey (downloadDir : String) (st : BrowseState) :
    List DownloadRequest × Finset Nat :=
  if 0 < st.checkedItems.card then
    let indices := st.checkedItems.sort (· ≤ ·)
    let items := indices.filterMap (fun i => st.displayItems[i]?)
    let reqs := items.filterMap (fun item =>
      let base := item.path.getD st.currentPath
      if item.type = FileType.file then addFileDownload downloadDir item base
      else if item.type = FileType.dir then
        addDirectoryDownload downloadDir item base true
      else none)
    (reqs, ∅)
  else
    match st.displayItems[st.globalIndex]? with
    | none => ([], st.checkedItems)
    | some item =>
      let base := item.path.getD st.currentPath
      (if item.type = FileType.file then
          (addFileDownload downloadDir item base).toList
        else if item.type = FileType.dir then
          (addDirectoryDownload downloadDir item base true).toList
        else [],
        st.checkedItems)

/-- The claim-facing description of what one displayed entry contributes:
FILE entries a plain transfer, DIR entries a recursive transfer, both
resolved against the entry's own `path` when present else the browse
path; LINK entries contribute nothing. -/
def requestFor (downloadDir currentPath : String) (item : FileItem) :
    Option DownloadRequest :=
  match item.type with
  | FileType.file => some
      { remotePath := fullPath (item.path.getD currentPath) item.name
        localPath := joinLocal downloadDir item.name
        recursive := false }
  | FileType.dir => some
      { remotePath := fullPath (item.path.getD currentPath) item.name
        localPath := joinLocal downloadDir item.name
        recursive := true }
  | FileType.link => none

theorem dispatchItem_eq (downloadDir currentPath : String) (item : FileItem) :
    (if item.type = FileType.file then
        addFileDownload downloadDir item (item.path.getD currentPath)
      else if item.type = FileType.dir then
        addDirectoryDownload downloadDir item (item.path.getD currentPath) true
      else none) = requestFor downloadDir currentPath item := by
  rcases item with ⟨t, n, _, _, _, _, p⟩
  cases t <;> simp [addFileDownload, addDirectoryDownload, requestFor]

/-- A concrete browse state: the displayed list holds one symlink entry
(`latest -> v1.2.3`), and that entry (global index 0) is checked. -/
def linkCheckedState : BrowseState :=
  { displayItems := [{ type := FileType.link, name := "latest", target := some "v1.2.3" }]
    currentPath := "/"
    checkedItems := {0}
    globalIndex := 0 }

/-- C4 counterexample: with one checked LINK entry, dispatching the
download key queues nothing (the LINK entry is silently skipped, though
the checked set of size 1 is still cleared), while the claim requires
every checked entry to be queued. -/
theorem C4_counterexample_checked_link_not_queued :
    (dispatchDownloadKey "downloads" linkCheckedState).1 = [] ∧
      linkCheckedState.checkedItems.card = 1 := by
  constructor
  · simp [dispatchDownloadKey, linkCheckedState, Finset.sort_singleton,
      addFileDownload, addDirectoryDownload]
  · decide

/-- C4 (amended): when the checked set is non-empty, exactly the checked
FILE and DIR entries are queued — in ascending index order, each resolved
against its own `path` field when present else the current browse path,
directories always recursively — while checked LINK entries are skipped;
the checked set is then cleared.  When the checked set is empty, the
single entry under the cursor is queued by the same rule (and the checked
set stays as it was). -/
theorem C4_download_dispatch (downloadDir : String) (st : BrowseState) :
    ((dispatchDownloadKey downloadDir st).2 =
        if 0 < st.checkedItems.card then ∅ else st.checkedItems) ∧
      ((dispatchDownloadKey downloadDir st).1 =
        if 0 < st.checkedItems.card then
          ((st.checkedItems.sort (· ≤ ·)).filterMap
              (fun i => st.displayItems[i]?)).filterMap
            (requestFor downloadDir st.currentPath)
        else
          (st.displayItems[st.globalIndex]?.bind
            (requestFor downloadDir st.currentPath)).toList) := by
  unfold dispatchDownloadKey
  by_cases hc : 0 < st.checkedItems.card
  · rw [if_pos hc]
    refine ⟨by rw [if_pos hc], ?_⟩
    rw [if_pos hc]
    simp only [dispatchItem_eq]
  · rw [if_neg hc]
    cases hsel : st.displayItems[st.globalIndex]? with
    | none =>
      refine ⟨by rw [if_neg hc], ?_⟩
      rw [if_neg hc]
      rfl
    | some item =>
      refine ⟨by rw [if_neg hc], ?_⟩
      rw [if_neg hc]
      rcases item with ⟨t, n, sz, dt, tg, pm, p⟩
      cases t <;> simp [addFileDownload, addDirectoryDownload, requestFor]

/-! ## Recursive directory download (`FTPService.downloadDirectory`)

`downloadDirectory(remotePath, localPath)` ensures the local directory
exists, lists the remote directory (through `list()`, so filtered and
sorted), and walks the entries in listing order: DIR entries recurse with
both paths extended by the entry name, FILE entries are downloaded, LINK
entries are skipped.  The remote server is modelled as an inline tree of
raw entries; `list()` applied to one node is `listTree`. -/

/-- A raw remote tree entry: a subdirectory with its own raw listing, a
file with a size, or a symlink. -/
inductive REntry where
  | dirE (name : String) (children : List REntry) : REntry
  | fileE (name : String) (size : Nat) : REntry
  | linkE (name : String) (target : String) : REntry

/-- Name of a raw entry. -/
def entryName : REntry → String
  | REntry.dirE n _ => n
  | REntry.fileE n _ => n
  | REntry.linkE n _ => n

/-- The raw record of one tree entry, as the FTP client library would
report it. -/
def entryToItem : REntry → FileItem
  | REntry.dirE n _ => { type := FileType.dir, name := n }
  | REntry.fileE n sz => { type := FileType.file, name := n, size := some sz }
  | REntry.linkE n t => { type := FileType.link, name := n, target := some t }

/-- `list()` on one tree node: drop `.` and `..`, map to items, sort. -/
def listTree (es : List REntry) : List FileItem :=
  sortEntries
    ((es.filter (fun e => entryName e != "." && entryName e != "..")).map entryToItem)

/-- The children of the first subdirectory entry with the given name (the
listing the server would return for that subdirectory's path). -/
def findDir : List REntry → String → Option (List REntry)
  | [], _ => none
  | REntry.dirE m cs :: rest, n => if m = n then some cs else findDir rest n
  | _ :: rest, n => findDir rest n

theorem findDir_sizeOf :
    ∀ (es : List REntry) (n : String) (cs : List REntry),
      findDir es n = some cs → sizeOf cs < sizeOf es := by
  intro es
  induction es with
  | nil => intro n cs h; cases h
  | cons e rest ih =>
    intro n cs h
    have hrest : sizeOf rest < sizeOf (e :: rest) := by
      cases e <;> simp <;> omega
    cases e with
    | dirE m cs2 =>
      simp only [findDir] at h
      by_cases hm : m = n
      · rw [if_pos hm] at h
        injection h with h
        subst h
        simp
        omega
      · rw [if_neg hm] at h
        exact lt_trans (ih n cs h) hrest
    | fileE m sz =>
      simp only [findDir] at h
      exact lt_trans (ih n cs h) hrest
    | linkE m t =>
      simp only [findDir] at h
      exact lt_trans (ih n cs h) hrest

/-- The externally visible filesystem effects of a directory download. -/
inductive DAct where
  | mkdirA (localPath : String) : DAct
  | downloadA (remotePath localPath : String) : DAct
deriving DecidableEq, Repr

mutual

/-- `FTPService.downloadDirectory(remotePath, localPath)` over the tree
`es` (the raw listing of the directory at `remotePath`), as the list of
filesystem effects it performs, in order. -/
def downloadDirectory (es : List REntry) (remotePath localPath : String) :
    List DAct :=
  DAct.mkdirA localPath :: downloadEntries es (listTree es) remotePath localPath
termination_by (sizeOf es, 1, 0)

/-- The entry loop of `downloadDirectory`: recurse for DIR, download for
FILE, skip LINK, both paths extended by the entry name. -/
def downloadEntries (es : List REntry) :
    List FileItem → String → String → List DAct
  | [], _, _ => []
  | f :: rest, remotePath, localPath =>
    (match f.type with
      | FileType.dir =>
        (match hfd : findDir es f.name with
          | some cs =>
            have hlt : sizeOf cs < sizeOf es := findDir_sizeOf es f.name cs hfd
            downloadDirectory cs (fullPath remotePath f.name)
              (joinLocal localPath f.name)
          | none => [])
      | FileType.file =>
        [DAct.downloadA (fullPath remotePath f.name) (joinLocal localPath f.name)]
      | FileType.link => []) ++
      downloadEntries es rest remotePath localPath
termination_by files _ _ => (sizeOf es, 0, files.length)

end

mutual

/-- Specification-side description of a directory download (the claim's
words): walk the listing in order, collect every FILE's relative path
(its chain of entry names), recurse into every DIR, skip every LINK —
the relative directory structure, independent of the base paths. -/
def specTreeFiles (es : List REntry) : List (List String) :=
  specFilesOver es (listTree es)
termination_by (sizeOf es, 1, 0)

/-- The per-listing walk of `specTreeFiles`. -/
def specFilesOver (es : List REntry) : List FileItem → List (List String)
  | [] => []
  | f :: rest =>
    (match f.type with
      | FileType.dir =>
        (match hfd : findDir es f.name with
          | some cs =>
            have hlt : sizeOf cs < sizeOf es := findDir_sizeOf es f.name cs hfd
            (specTreeFiles cs).map (fun segs => f.name :: segs)
          | none => [])
      | FileType.file => [[f.name]]
      | FileType.link => []) ++
      specFilesOver es rest
termination_by files => (sizeOf es, 0, files.length)

end

/-- The download actions of an action list, as (remote, local) pairs, in
order. -/
def filesOf : List DAct → List (String × String)
  | [] => []
  | DAct.downloadA r l :: rest => (r, l) :: filesOf rest
  | DAct.mkdirA _ :: rest => filesOf rest

/-- A relative segment chain appended to a remote base path. -/
def remoteJoinAll (base : String) (segs : List String) : String :=
  segs.foldl fullPath base

/-- A relative segment chain appended to a local base path. -/
def localJoinAll (base : String) (segs : List String) : String :=
  segs.foldl joinLocal base

theorem filesOf_append :
    ∀ a b : List DAct, filesOf (a ++ b) = filesOf a ++ filesOf b := by
  intro a
  induction a with
  | nil => intro b; simp [filesOf]
  | cons e rest ih =>
    intro b
    cases e <;> simp [filesOf, ih]

theorem downloadEntries_nil {es : List REntry} {rp lp : String} :
    downloadEntries es [] rp lp = [] := by
  simp [downloadEntries]

theorem downloadEntries_cons_file {es : List REntry} {f : FileItem}
    {rest : List FileItem} {rp lp : String} (hft : f.type = FileType.file) :
    downloadEntries es (f :: rest) rp lp =
      DAct.downloadA (fullPath rp f.name) (joinLocal lp f.name) ::
        downloadEntries es rest rp lp := by
  simp [downloadEntries, hft]

theorem downloadEntries_cons_link {es : List REntry} {f : FileItem}
    {rest : List FileItem} {rp lp : String} (hft : f.type = FileType.link) :
    downloadEntries es (f :: rest) rp lp = downloadEntries es rest rp lp := by
  simp [downloadEntries, hft]

theorem downloadEntries_cons_dir {es cs : List REntry} {f : FileItem}
    {rest : List FileItem} {rp lp : String} (hft : f.type = FileType.dir)
    (hfd : findDir es f.name = some cs) :
    downloadEntries es (f :: rest) rp lp =
      downloadDirectory cs (fullPath rp f.name) (joinLocal lp f.name) ++
        downloadEntries es rest rp lp := by
  simp only [downloadEntries, hft]
  congr 1
  split
  · rename_i cs2 heq
    have h2 := hfd.symm.trans heq
    injection h2 with h2
    rw [h2]
  · rename_i heq
    rw [hfd] at heq
    cases heq

theorem downloadEntries_cons_dir_none {es : List REntry} {f : FileItem}
    {rest : List FileItem} {rp lp : String} (hft : f.type = FileType.dir)
    (hfd : findDir es f.name = none) :
    downloadEntries es (f :: rest) rp lp = downloadEntries es rest rp lp := by
  simp only [downloadEntries, hft]
  rw [show (match hfd : findDir es f.name with
      | some cs => downloadDirectory cs (fullPath rp f.name) (joinLocal lp f.name)
      | none => ([] : List DAct)) = [] from by
    split
    · rename_i cs2 heq
      rw [hfd] at heq
      cases heq
    · rfl]
  rfl

theorem specFilesOver_nil {es : List REntry} :
    specFilesOver es [] = [] := by
  simp [specFilesOver]

theorem specFilesOver_cons_file {es : List REntry} {f : FileItem}
    {rest : List FileItem} (hft : f.type = FileType.file) :
    specFilesOver es (f :: rest) = [f.name] :: specFilesOver es rest := by
  simp [specFilesOver, hft]

theorem specFilesOver_cons_link {es : List REntry} {f : FileItem}
    {rest : List FileItem} (hft : f.type = FileType.link) :
    specFilesOver es (f :: rest) = specFilesOver es rest := by
  simp [specFilesOver, hft]

theorem specFilesOver_cons_dir {es cs : List REntry} {f : FileItem}
    {rest : List FileItem} (hft : f.type = FileType.dir)
    (hfd : findDir es f.name = some cs) :
    specFilesOver es (f :: rest) =
      (specTreeFiles cs).map (fun segs => f.name :: segs) ++ specFilesOver es rest := by
  simp only [specFilesOver, hft]
  congr 1
  split
  · rename_i cs2 heq
    have h2 := hfd.symm.trans heq
    injection h2 with h2
    rw [h2]
  · rename_i heq
    rw [hfd] at heq
    cases heq

theorem specFilesOver_cons_dir_none {es : List REntry} {f : FileItem}
    {rest : List FileItem} (hft : f.type = FileType.dir)
    (hfd : findDir es f.name = none) :
    specFilesOver es (f :: rest) = specFilesOver es rest := by
  simp only [specFilesOver, hft]
  rw [show (match hfd : findDir es f.name with
      | some cs => (specTreeFiles cs).map (fun segs => f.name :: segs)
      | none => ([] : List (List String))) = [] from by
    split
    · rename_i cs2 heq
      rw [hfd] at heq
      cases heq
    · rfl]
  rfl

theorem downloadDirectory_refines :
    ∀ (N : Nat) (es : List REntry), sizeOf es ≤ N → ∀ (rp lp : String),
      filesOf (downloadDirectory es rp lp) =
        (specTreeFiles es).map
          (fun segs => (remoteJoinAll rp segs, localJoinAll lp segs)) := by
  intro N
  induction N with
  | zero =>
    intro es h
    exfalso
    have hpos : 0 < sizeOf es := by
      cases es <;> simp <;> omega
    omega
  | succ n ihN =>
    intro es hN rp lp
    have hent : ∀ files rp lp,
        filesOf (downloadEntries es files rp lp) =
          (specFilesOver es files).map
            (fun segs => (remoteJoinAll rp segs, localJoinAll lp segs)) := by
      intro files
      induction files with
      | nil => intro rp lp; simp [downloadEntries_nil, specFilesOver_nil, filesOf]
      | cons f rest ihf =>
        intro rp lp
        cases hft : f.type with
        | file =>
          rw [downloadEntries_cons_file hft, specFilesOver_cons_file hft]
          simp only [filesOf, List.map_cons]
          rw [ihf]
          rfl
        | link =>
          rw [downloadEntries_cons_link hft, specFilesOver_cons_link hft]
          exact ihf rp lp
        | dir =>
          cases hfd : findDir es f.name with
          | none =>
            rw [downloadEntries_cons_dir_none hft hfd,
              specFilesOver_cons_dir_none hft hfd]
            exact ihf rp lp
          | some cs =>
            rw [downloadEntries_cons_dir hft hfd, specFilesOver_cons_dir hft hfd]
            rw [filesOf_append, List.map_append, List.map_map]
            have hcs : sizeOf cs ≤ n := by
              have := findDir_sizeOf es f.name cs hfd
              omega
            rw [ihf]
            have hrec := ihN cs hcs (fullPath rp f.name) (joinLocal lp f.name)
            rw [hrec]
            rfl
    show filesOf (downloadDirectory es rp lp) = _
    rw [show downloadDirectory es rp lp =
        DAct.mkdirA lp :: downloadEntries es (listTree es) rp lp from by
      simp [downloadDirectory]]
    show filesOf (downloadEntries es (listTree es) rp lp) = _
    rw [hent]
    rw [show specTreeFiles es = specFilesOver es (listTree es) from by
      simp [specTreeFiles]]

/-- The remote tree of Scenario E: `a.txt` of 100 bytes and `sub/b.txt`
of 50 bytes. -/
def scenarioTree : List REntry :=
  [REntry.fileE "a.txt" 100, REntry.dirE "sub" [REntry.fileE "b.txt" 50]]

/-- C8: `downloadDirectory` walks the listing in order, recursing into
DIR entries, downloading FILE entries and skipping LINK entries, with
both base paths extended by each entry name — so the downloaded files
are exactly the tree's files at their relative paths (the
specification-side `specTreeFiles`), joined under the remote and local
bases.  In particular, Scenario E's tree downloaded from `/` into
`outDir` produces exactly `outDir/sub/b.txt` and `outDir/a.txt` (plus the
two directory creations) and no top-level file named `sub`. -/
theorem C8_downloadDirectory_preserves_structure (es : List REntry)
    (rp lp : String) :
    filesOf (downloadDirectory es rp lp) =
      (specTreeFiles es).map
        (fun segs => (remoteJoinAll rp segs, localJoinAll lp segs)) ∧
      downloadDirectory scenarioTree "/" "outDir" =
        [DAct.mkdirA "outDir", DAct.mkdirA "outDir/sub",
          DAct.downloadA "/sub/b.txt" "outDir/sub/b.txt",
          DAct.downloadA "/a.txt" "outDir/a.txt"] := by
  constructor
  · exact downloadDirectory_refines (sizeOf es) es (le_refl _) rp lp
  · have h1 : listTree [REntry.fileE "a.txt" 100,
        REntry.dirE "sub" [REntry.fileE "b.txt" 50]] =
        [{ type := FileType.dir, name := "sub" },
          { type := FileType.file, name := "a.txt", size := some 100 }] := by decide
    have h2 : listTree [REntry.fileE "b.txt" 50] =
        [{ type := FileType.file, name := "b.txt", size := some 50 }] := by decide
    simp [downloadDirectory, downloadEntries, h1, h2, scenarioTree, findDir,
      fullPath, joinLocal]

/-! ## Connect error classification (`FTPService.connect`)

`connect()` calls the transport's `access(...)`.  On success it sets the
connected flag, emits a `connected` event and resolves `true`; on failure
it resets the flag and throws an error classified by substring tests on
the lowercased transport message, in the source's order: timeout text →
`TimeoutError`, credential text (`login`/`auth`/`530`) →
`AuthenticationError`, DNS text → `ConnectionError` with the
cannot-resolve message, `connect`/`refused` → `ConnectionError` with the
cannot-connect message, anything else → the generic `ConnectionError`. -/

namespace errorMessages

/-- `errorMessages.dnsResolve` of `utils/constants.ts`. -/
def dnsResolve : String := "Cannot resolve hostname"

/-- `errorMessages.connection` of `utils/constants.ts`. -/
def connection : String := "Cannot connect to FTP server"

/-- `errorMessages.timeout` of `utils/constants.ts`. -/
def timeout : String := "Connection timeout"

/-- `errorMessages.login` of `utils/constants.ts`. -/
def login : String := "Authentication failed"

end errorMessages

/-- The error kinds `connect()` can throw (`services/errors.ts`). -/
inductive FTPErr where
  | connectionE (message : String) : FTPErr
  | authenticationE (message : String) : FTPErr
  | timeoutE (message : String) : FTPErr
deriving DecidableEq, Repr

/-- The classification cascade of `connect()`'s catch block. -/
def classifyConnectError (msg : String) : FTPErr :=
  let m := toLowerStr msg
  if containsSub m "timeout" || containsSub m "timed out" then
    FTPErr.timeoutE errorMessages.timeout
  else if containsSub m "login" || containsSub m "auth" || containsSub m "530" then
    FTPErr.authenticationE errorMessages.login
  else if containsSub m "resolve" || containsSub m "dns" then
    FTPErr.connectionE errorMessages.dnsResolve
  else if containsSub m "connect" || containsSub m "refused" then
    FTPErr.connectionE errorMessages.connection
  else FTPErr.connectionE errorMessages.connection

/-- Observable outcome of one `connect()` call: the `isConnected` flag
afterwards, the events emitted, and the returned/thrown result. -/
structure ConnectOutcome where
  isConnected : Bool
  events : List String
  result : Except FTPErr Bool
deriving Repr

/-- `FTPService.connect()` as a function of the transport's outcome
(`client.access` resolving or rejecting with an error message). -/
def connect (transport : Except String Unit) : ConnectOutcome :=
  match transport with
  | Except.ok _ =>
    { isConnected := true, events := ["connected"], result := Except.ok true }
  | Except.error msg =>
    { isConnected := false, events := [], result := Except.error (classifyConnectError msg) }

/-- The claim's classification table, written as data: the first rule
whose pattern list matches the lowercased message decides the error; no
rule matching yields the generic connection error. -/
def specConnectRules : List (List String × FTPErr) :=
  [(["timeout", "timed out"], FTPErr.timeoutE errorMessages.timeout),
    (["login", "auth", "530"], FTPErr.authenticationE errorMessages.login),
    (["resolve", "dns"], FTPErr.connectionE errorMessages.dnsResolve),
    (["connect", "refused"], FTPErr.connectionE errorMessages.connection)]

/-- Specification-side classifier over `specConnectRules`. -/
def specClassify (msg : String) : FTPErr :=
  match specConnectRules.find?
      (fun rule => rule.1.any (fun pat => containsSub (toLowerStr msg) pat)) with
  | some rule => rule.2
  | none => FTPErr.connectionE errorMessages.connection

/-- C9: a failing `connect()` resets the connected flag, emits nothing,
and throws exactly the error the claim's classification table prescribes
(first matching rule on the lowercased message text, generic
`ConnectionError` otherwise) with no retry; a successful `connect()` sets
the flag, emits the `connected` event and resolves `true`. -/
theorem C9_connect_classifies_and_resets (msg : String) :
    connect (Except.ok ()) =
        { isConnected := true, events := ["connected"], result := Except.ok true } ∧
      (connect (Except.error msg)).isConnected = false ∧
      (connect (Except.error msg)).events = [] ∧
      (connect (Except.error msg)).result = Except.error (specClassify msg) := by
  refine ⟨rfl, rfl, rfl, ?_⟩
  show Except.error (classifyConnectError msg) = Except.error (specClassify msg)
  congr 1
  unfold classifyConnectError specClassify specConnectRules
  simp only [List.find?, List.any]
  cases h1 : containsSub (toLowerStr msg) "timeout" <;>
    cases h2 : containsSub (toLowerStr msg) "timed out" <;>
    cases h3 : containsSub (toLowerStr msg) "login" <;>
    cases h4 : containsSub (toLowerStr msg) "auth" <;>
    cases h5 : containsSub (toLowerStr msg) "530" <;>
    cases h6 : containsSub (toLowerStr msg) "resolve" <;>
    cases h7 : containsSub (toLowerStr msg) "dns" <;>
    cases h8 : containsSub (toLowerStr msg) "connect" <;>
    cases h9 : containsSub (toLowerStr msg) "refused" <;>
    rfl
